import Mathlib

/-!
Verification development for the `pq_redis_mem` priority-queue library.

The library offers two backends behind one interface:

* `MultiPriorityQueue` — an in-process registry mapping queue names to
  `PriorityQueue` values, each holding ten bucketed levels (priorities 0–9,
  0 most urgent).  Translated from `priorityqueue` package,
  `MultiPriorityQueue` methods.
* `RedisPriorityQueue` — the same operation set realized against a Redis
  sorted set per queue name, with the member's score encoding priority.

Values are compared by their string form in the Go code
(`fmt.Sprintf("%v")`); following that, values are modelled as `String`.
Go maps are modelled as association lists with unique keys (uniqueness is
maintained by the operations themselves, exactly as in the source).
Errors become an explicit error type; each operation returns the
result-or-error together with the post state, mirroring the imperative
receiver mutation.
-/

instance {ε α : Type} [DecidableEq ε] [DecidableEq α] :
    DecidableEq (Except ε α) := fun x y =>
  match x, y with
  | .ok a, .ok b =>
      if h : a = b then .isTrue (by rw [h])
      else .isFalse (fun hc => h (Except.ok.inj hc))
  | .ok _, .error _ => .isFalse (fun hc => Except.noConfusion hc)
  | .error _, .ok _ => .isFalse (fun hc => Except.noConfusion hc)
  | .error e, .error f =>
      if h : e = f then .isTrue (by rw [h])
      else .isFalse (fun hc => h (Except.error.inj hc))

/-- Error taxonomy of the library (each Go `fmt.Errorf` site, classified). -/
inductive PQError where
  | alreadyExists (name : String)
  | queueNotFound (name : String)
  | invalidPriority
  | emptyQueue (name : String)
  | notFound (value : String) (name : String)
deriving Repr, DecidableEq

/-- `Item` from the source: a value plus the priority it was filed under. -/
structure Item where
  value : String
  priority : Int
deriving Repr, DecidableEq

/-- `PriorityQueue`: one named queue's ten priority levels (`queues [][]Item`).
`NewPriorityQueue` always creates exactly 10 levels and no operation changes
the level count, so every reachable value has `queues.length = 10`. -/
structure PriorityQueue where
  queues : List (List Item)
deriving Repr, DecidableEq

/-- `NewPriorityQueue()`: ten empty levels. -/
def NewPriorityQueue : PriorityQueue :=
  ⟨List.replicate 10 []⟩

/-- Association-list lookup, modelling Go map read `m[k]` with its `ok` flag. -/
def assocFind {κ α : Type} [DecidableEq κ] : List (κ × α) → κ → Option α
  | [], _ => none
  | (k, a) :: rest, key => if k = key then some a else assocFind rest key

/-- Association-list write, modelling Go map assignment `m[k] = a`. -/
def assocSet {κ α : Type} [DecidableEq κ] : List (κ × α) → κ → α → List (κ × α)
  | [], key, a => [(key, a)]
  | (k, b) :: rest, key, a =>
      if k = key then (key, a) :: rest else (k, b) :: assocSet rest key a

/-- `MultiPriorityQueue`: the bucket backend's registry of named queues. -/
structure MultiPriorityQueue where
  queues : List (String × PriorityQueue)
deriving Repr, DecidableEq

/-- `NewMultiPriorityQueue()`: empty registry. -/
def NewMultiPriorityQueue : MultiPriorityQueue := ⟨[]⟩

def MultiPriorityQueue.lookup (mpq : MultiPriorityQueue) (name : String) :
    Option PriorityQueue :=
  assocFind mpq.queues name

def MultiPriorityQueue.setQueue (mpq : MultiPriorityQueue) (name : String)
    (pq : PriorityQueue) : MultiPriorityQueue :=
  ⟨assocSet mpq.queues name pq⟩

/-- `MultiPriorityQueue.AddQueue`: error if the name exists, else bind it to a
fresh empty queue. -/
def MultiPriorityQueue.AddQueue (mpq : MultiPriorityQueue) (name : String) :
    Except PQError Unit × MultiPriorityQueue :=
  match mpq.lookup name with
  | some _ => (.error (.alreadyExists name), mpq)
  | none => (.ok (), mpq.setQueue name NewPriorityQueue)

/-- `pq.queues[priority] = append(pq.queues[priority], item)`. -/
def levelAppend (queues : List (List Item)) (p : Nat) (it : Item) :
    List (List Item) :=
  queues.set p (queues.getD p [] ++ [it])

/-- `pq.queues[priority] = append([]Item{item}, pq.queues[priority]...)`. -/
def levelPrepend (queues : List (List Item)) (p : Nat) (it : Item) :
    List (List Item) :=
  queues.set p (it :: queues.getD p [])

/-- `MultiPriorityQueue.Enqueue`: validate the priority range, resolve the
name, append to that priority's level. -/
def MultiPriorityQueue.Enqueue (mpq : MultiPriorityQueue) (queueName : String)
    (value : String) (priority : Int) :
    Except PQError Unit × MultiPriorityQueue :=
  if priority < 0 ∨ priority > 9 then (.error .invalidPriority, mpq)
  else
    match mpq.lookup queueName with
    | none => (.error (.queueNotFound queueName), mpq)
    | some pq =>
        (.ok (), mpq.setQueue queueName
          ⟨levelAppend pq.queues priority.toNat ⟨value, priority⟩⟩)

/-- The Go loop `for i := 0; i < 10; i++` in `Dequeue`: scan the levels from
level 0 upward, pop the front of the first non-empty one.  (Reachable level
lists always have length 10, so the structural scan is the source's loop.) -/
def dequeueLevels : List (List Item) → Option (Item × List (List Item))
  | [] => none
  | (it :: others) :: rest => some (it, others :: rest)
  | [] :: rest =>
      match dequeueLevels rest with
      | some (it, rest2) => some (it, [] :: rest2)
      | none => none

/-- `MultiPriorityQueue.Dequeue`: resolve the name, then return and remove the
front item of the first non-empty level; `EmptyQueue` if all levels are empty. -/
def MultiPriorityQueue.Dequeue (mpq : MultiPriorityQueue) (queueName : String) :
    Except PQError String × MultiPriorityQueue :=
  match mpq.lookup queueName with
  | none => (.error (.queueNotFound queueName), mpq)
  | some pq =>
      match dequeueLevels pq.queues with
      | some (it, queues2) => (.ok it.value, mpq.setQueue queueName ⟨queues2⟩)
      | none => (.error (.emptyQueue queueName), mpq)

/-- `MultiPriorityQueue.IsEmpty`: true iff every level is empty. -/
def MultiPriorityQueue.IsEmpty (mpq : MultiPriorityQueue) (queueName : String) :
    Except PQError Bool × MultiPriorityQueue :=
  match mpq.lookup queueName with
  | none => (.error (.queueNotFound queueName), mpq)
  | some pq => (.ok (pq.queues.all List.isEmpty), mpq)

/-- The `ListContents` loop: levels are visited with their priority index in
ascending order; only non-empty levels produce an entry. -/
def listLevels : Nat → List (List Item) → List (Nat × List String)
  | _, [] => []
  | p, level :: rest =>
      if level.isEmpty then listLevels (p + 1) rest
      else (p, level.map Item.value) :: listLevels (p + 1) rest

/-- `MultiPriorityQueue.ListContents`: the per-priority value sequences of all
non-empty levels (the Go `map[int][]interface{}`, keyed 0–9 and built in
ascending priority order). -/
def MultiPriorityQueue.ListContents (mpq : MultiPriorityQueue)
    (queueName : String) :
    Except PQError (List (Nat × List String)) × MultiPriorityQueue :=
  match mpq.lookup queueName with
  | none => (.error (.queueNotFound queueName), mpq)
  | some pq => (.ok (listLevels 0 pq.queues), mpq)

/-- Inner loop of `GetPosition`: index of the first item of a level whose
string form matches. -/
def levelIdx : Nat → List Item → String → Option Nat
  | _, [], _ => none
  | i, it :: rest, v => if it.value = v then some i else levelIdx (i + 1) rest v

/-- Outer loop of `GetPosition`: scan levels 0 upward, first match wins. -/
def findPos : Nat → List (List Item) → String → Option (Nat × Nat)
  | _, [], _ => none
  | p, level :: rest, v =>
      match levelIdx 0 level v with
      | some i => some (p, i)
      | none => findPos (p + 1) rest v

/-- `MultiPriorityQueue.GetPosition`: priority and zero-based index within the
level of the first item whose value matches. -/
def MultiPriorityQueue.GetPosition (mpq : MultiPriorityQueue)
    (queueName : String) (value : String) :
    Except PQError (Int × Int) × MultiPriorityQueue :=
  match mpq.lookup queueName with
  | none => (.error (.queueNotFound queueName), mpq)
  | some pq =>
      match findPos 0 pq.queues value with
      | some (p, i) => (.ok ((p : Int), (i : Int)), mpq)
      | none => (.error (.notFound value queueName), mpq)

/-- `MultiPriorityQueue.InsertAtTop`: validate the priority range, resolve the
name, prepend to that priority's level. -/
def MultiPriorityQueue.InsertAtTop (mpq : MultiPriorityQueue)
    (queueName : String) (value : String) (priority : Int) :
    Except PQError Unit × MultiPriorityQueue :=
  if priority < 0 ∨ priority > 9 then (.error .invalidPriority, mpq)
  else
    match mpq.lookup queueName with
    | none => (.error (.queueNotFound queueName), mpq)
    | some pq =>
        (.ok (), mpq.setQueue queueName
          ⟨levelPrepend pq.queues priority.toNat ⟨value, priority⟩⟩)

/-!
## The store backend

`RedisPriorityQueue` maps each queue name to one Redis sorted set.  The
sorted set is the documented Redis collaborator: members are unique
strings, each carrying a score; `ZRANGE`/`ZPOPMIN` order members by score
ascending, equal scores ordered lexicographically by member.  A missing
key behaves as the empty set.

Scores are modelled exactly, in integer micro-units (1 unit = 1e-6):
`Enqueue` writes `priority` (i.e. `priority * 1000000` units) and
`InsertAtTop` writes `priority - 0.000001` (i.e. `priority * 1000000 - 1`
units).  Go's `int(score + 0.5)` conversion truncates toward zero, which
on these units is `Int.tdiv (s + 500000) 1000000`; the double-precision
error of the source's floats (about 1e-16) never moves a reachable score
across a truncation boundary (reachable scores sit 0.499999 away from
one), so the micro-unit model is observationally exact.
-/

/-- One sorted-set member: the member string and its score in micro-units. -/
abbrev ZEntry := String × Int

/-- Lexicographic comparison of character lists by code point; on UTF-8
strings this is exactly Redis's byte-wise member comparison. -/
def charListLt : List Char → List Char → Bool
  | [], [] => false
  | [], _ :: _ => true
  | _ :: _, [] => false
  | c :: cs, d :: ds =>
      if c.toNat < d.toNat then true
      else if d.toNat < c.toNat then false
      else charListLt cs ds

/-- Member comparison of the sorted-set store. -/
def strBefore (a b : String) : Bool := charListLt a.data b.data

/-- Redis sorted-set ordering: score ascending, ties lexicographic by member. -/
def zBefore (a b : ZEntry) : Bool :=
  decide (a.2 < b.2) || (decide (a.2 = b.2) && strBefore a.1 b.1)

/-- Insert an entry at its sorted-set rank. -/
def zinsert (e : ZEntry) : List ZEntry → List ZEntry
  | [] => [e]
  | x :: xs => if zBefore e x then e :: x :: xs else x :: zinsert e xs

example : zinsert ("a", 5) [("b", 5)] = [("a", 5), ("b", 5)] := by decide

/-- `ZADD`: add the member with the score, or update the score of an existing
member (members are unique in a sorted set). -/
def zAdd (zs : List ZEntry) (member : String) (score : Int) : List ZEntry :=
  zinsert (member, score) (zs.filter (fun x => x.1 ≠ member))

/-- `ZREM`: remove the member; also reports how many entries were removed. -/
def zRem (zs : List ZEntry) (member : String) : List ZEntry × Nat :=
  let zs2 := zs.filter (fun x => x.1 ≠ member)
  (zs2, zs.length - zs2.length)

/-- `RedisPriorityQueue`: the store, one sorted set per queue name.  A name
without a binding is a key with no members. -/
structure RedisPriorityQueue where
  store : List (String × List ZEntry)
deriving Repr, DecidableEq

/-- Key read: a missing key is an empty sorted set. -/
def RedisPriorityQueue.getKey (r : RedisPriorityQueue) (name : String) :
    List ZEntry :=
  (assocFind r.store name).getD []

def RedisPriorityQueue.setKey (r : RedisPriorityQueue) (name : String)
    (zs : List ZEntry) : RedisPriorityQueue :=
  ⟨assocSet r.store name zs⟩

/-- `RedisPriorityQueue.AddQueue`: a no-op success. -/
def RedisPriorityQueue.AddQueue (r : RedisPriorityQueue) (_name : String) :
    Except PQError Unit × RedisPriorityQueue :=
  (.ok (), r)

/-- `RedisPriorityQueue.Enqueue`: validate the range, `ZADD` with
score = priority. -/
def RedisPriorityQueue.Enqueue (r : RedisPriorityQueue) (queueName : String)
    (value : String) (priority : Int) :
    Except PQError Unit × RedisPriorityQueue :=
  if priority < 0 ∨ priority > 9 then (.error .invalidPriority, r)
  else
    (.ok (), r.setKey queueName
      (zAdd (r.getKey queueName) value (priority * 1000000)))

/-- `RedisPriorityQueue.Dequeue`: `ZPOPMIN`; `EmptyQueue` when the key has no
members. -/
def RedisPriorityQueue.Dequeue (r : RedisPriorityQueue) (queueName : String) :
    Except PQError String × RedisPriorityQueue :=
  match r.getKey queueName with
  | [] => (.error (.emptyQueue queueName), r)
  | e :: rest => (.ok e.1, r.setKey queueName rest)

/-- `RedisPriorityQueue.IsEmpty`: `ZCARD` equals zero. -/
def RedisPriorityQueue.IsEmpty (r : RedisPriorityQueue) (queueName : String) :
    Except PQError Bool × RedisPriorityQueue :=
  (.ok ((r.getKey queueName).length == 0), r)

/-- Go's `int(score + 0.5)` on a micro-unit score: truncation toward zero. -/
def roundScore (s : Int) : Int :=
  Int.tdiv (s + 500000) 1000000

/-- `contents[priority] = append(contents[priority], member)` on the result
map, modelled as an association list in key-first-seen order. -/
def contentsInsert (p : Int) (m : String) :
    List (Int × List String) → List (Int × List String)
  | [] => [(p, [m])]
  | (q, vs) :: rest =>
      if q = p then (q, vs ++ [m]) :: rest
      else (q, vs) :: contentsInsert p m rest

/-- The `ListContents` member loop: group members (already in sorted-set
order) by rounded score, keeping only priorities 0–9. -/
def zContentsFold (acc : List (Int × List String)) :
    List ZEntry → List (Int × List String)
  | [] => acc
  | (m, s) :: rest =>
      let p := roundScore s
      zContentsFold (if 0 ≤ p ∧ p ≤ 9 then contentsInsert p m acc else acc) rest

/-- `RedisPriorityQueue.ListContents`: `ZRANGE` all members with scores, group
by rounded score. -/
def RedisPriorityQueue.ListContents (r : RedisPriorityQueue)
    (queueName : String) :
    Except PQError (List (Int × List String)) × RedisPriorityQueue :=
  (.ok (zContentsFold [] (r.getKey queueName)), r)

/-- The `GetPosition` member loop; `prev` holds the members already passed, in
sorted-set order, so the position is the count of earlier members sharing the
matched member's rounded score. -/
def zPosAux (prev : List ZEntry) : List ZEntry → String → Option (Int × Int)
  | [], _ => none
  | (m, s) :: rest, v =>
      if m = v then
        let p := roundScore s
        some (p, ((prev.filter (fun e => roundScore e.2 == p)).length : Int))
      else zPosAux (prev ++ [(m, s)]) rest v

/-- `RedisPriorityQueue.GetPosition`. -/
def RedisPriorityQueue.GetPosition (r : RedisPriorityQueue)
    (queueName : String) (value : String) :
    Except PQError (Int × Int) × RedisPriorityQueue :=
  match zPosAux [] (r.getKey queueName) value with
  | some pi => (.ok pi, r)
  | none => (.error (.notFound value queueName), r)

/-- `RedisPriorityQueue.InsertAtTop`: validate the range, `ZREM` any existing
member with the same string, `ZADD` it back with score
`priority - 0.000001`. -/
def RedisPriorityQueue.InsertAtTop (r : RedisPriorityQueue)
    (queueName : String) (value : String) (priority : Int) :
    Except PQError Unit × RedisPriorityQueue :=
  if priority < 0 ∨ priority > 9 then (.error .invalidPriority, r)
  else
    let zs := (zRem (r.getKey queueName) value).1
    (.ok (), r.setKey queueName (zAdd zs value (priority * 1000000 - 1)))

/-- `RedisPriorityQueue.DeleteItem`: `ZREM` by exact string; `NotFound` when
nothing was removed (in which case the store is untouched — `ZREM` of an
absent member changes no key). -/
def RedisPriorityQueue.DeleteItem (r : RedisPriorityQueue) (queueName : String)
    (value : String) : Except PQError Unit × RedisPriorityQueue :=
  let res := zRem (r.getKey queueName) value
  if res.2 = 0 then (.error (.notFound value queueName), r)
  else (.ok (), r.setKey queueName res.1)

/-!
## Derived observation functions

`dequeueAll` repeatedly calls `Dequeue`, collecting the returned values
until an error (for a reachable state, `EmptyQueue`) stops it; `fuel`
bounds the number of calls.  `size` is the total item count of a queue.
-/

/-- Total number of items across all levels. -/
def PriorityQueue.size (pq : PriorityQueue) : Nat :=
  (pq.queues.map List.length).sum

/-- Values obtained by calling `Dequeue` repeatedly (at most `fuel` times)
until it reports an error. -/
def MultiPriorityQueue.dequeueAll (mpq : MultiPriorityQueue) (name : String) :
    Nat → List String
  | 0 => []
  | fuel + 1 =>
      match mpq.Dequeue name with
      | (.ok v, mpq2) => v :: mpq2.dequeueAll name fuel
      | (.error _, _) => []

/-- Index of the first non-empty level, if any. -/
def firstNonEmpty : List (List Item) → Option Nat
  | [] => none
  | (_ :: _) :: _ => some 0
  | [] :: rest => (firstNonEmpty rest).map (· + 1)

/-!
## Association-list and level-scan lemmas
-/

theorem assocFind_set_self {κ α : Type} [DecidableEq κ]
    (l : List (κ × α)) (k : κ) (a : α) :
    assocFind (assocSet l k a) k = some a := by
  induction l with
  | nil => simp [assocSet, assocFind]
  | cons hd tl ih =>
      obtain ⟨k', b⟩ := hd
      by_cases h : k' = k <;> simp [assocSet, assocFind, h, ih]

theorem assocFind_set_ne {κ α : Type} [DecidableEq κ]
    (l : List (κ × α)) (k k' : κ) (a : α) (h : k ≠ k') :
    assocFind (assocSet l k a) k' = assocFind l k' := by
  induction l with
  | nil => simp [assocSet, assocFind, h]
  | cons hd tl ih =>
      obtain ⟨k'', b⟩ := hd
      by_cases h2 : k'' = k <;> simp [assocSet, assocFind, h, h2, ih]

theorem dequeueLevels_eq_none_iff (ls : List (List Item)) :
    dequeueLevels ls = none ↔ ls.flatten = [] := by
  induction ls with
  | nil => simp [dequeueLevels]
  | cons level rest ih =>
      cases level with
      | nil =>
          simp only [dequeueLevels, List.flatten_cons, List.nil_append]
          rw [← ih]
          cases h : dequeueLevels rest with
          | none => simp
          | some pair => obtain ⟨it, rest2⟩ := pair; simp
      | cons it others => simp [dequeueLevels]

theorem dequeueLevels_some (ls : List (List Item)) :
    ∀ it ls', dequeueLevels ls = some (it, ls') →
      ls.flatten = it :: ls'.flatten ∧ ls'.length = ls.length := by
  induction ls with
  | nil => intro it ls' h; simp [dequeueLevels] at h
  | cons level rest ih =>
      intro it ls' h
      cases level with
      | nil =>
          simp only [dequeueLevels] at h
          cases h2 : dequeueLevels rest with
          | none => rw [h2] at h; simp at h
          | some pair =>
              obtain ⟨it2, rest2⟩ := pair
              rw [h2] at h
              simp only [Option.some.injEq, Prod.mk.injEq] at h
              obtain ⟨rfl, rfl⟩ := h
              obtain ⟨h3, h4⟩ := ih it2 rest2 h2
              simp [h3, h4]
      | cons it0 others =>
          simp only [dequeueLevels, Option.some.injEq, Prod.mk.injEq] at h
          obtain ⟨rfl, rfl⟩ := h
          simp

theorem firstNonEmpty_eq_none_iff (ls : List (List Item)) :
    firstNonEmpty ls = none ↔ ∀ l ∈ ls, l = [] := by
  induction ls with
  | nil => simp [firstNonEmpty]
  | cons level rest ih =>
      cases level with
      | nil =>
          simp only [firstNonEmpty, Option.map_eq_none']
          simp_all
      | cons it others => simp [firstNonEmpty]

theorem firstNonEmpty_spec (ls : List (List Item)) :
    ∀ i, firstNonEmpty ls = some i →
      i < ls.length ∧ (∀ j, j < i → ls.getD j [] = []) ∧
      ∃ it rest, ls.getD i [] = it :: rest ∧
        dequeueLevels ls = some (it, ls.set i rest) := by
  induction ls with
  | nil => intro i h; simp [firstNonEmpty] at h
  | cons level tail ih =>
      intro i h
      cases level with
      | cons it others =>
          simp only [firstNonEmpty, Option.some.injEq] at h
          subst h
          refine ⟨by simp, by simp, it, others, by simp, ?_⟩
          simp [dequeueLevels]
      | nil =>
          simp only [firstNonEmpty, Option.map_eq_some'] at h
          obtain ⟨i0, h0, rfl⟩ := h
          obtain ⟨hlen, hprev, it, rest, hget, hdq⟩ := ih i0 h0
          refine ⟨by simpa using hlen, ?_, it, rest, by simpa using hget, ?_⟩
          · intro j hj
            cases j with
            | zero => simp
            | succ j0 => simpa using hprev j0 (by omega)
          · simp [dequeueLevels, hdq]

theorem getD_of_all_empty (ls : List (List Item)) (n : Nat)
    (h : ∀ l ∈ ls, l = []) : ls.getD n [] = [] := by
  induction ls generalizing n with
  | nil => simp
  | cons level rest ih =>
      cases n with
      | zero => simpa using h level (by simp)
      | succ n0 =>
          simp only [List.getD_cons_succ]
          exact ih n0 (fun l hl => h l (by simp [hl]))

theorem all_empty_of_getD (ls : List (List Item))
    (h : ∀ j, j < ls.length → ls.getD j [] = []) : ∀ l ∈ ls, l = [] := by
  intro l hl
  obtain ⟨i, hi, rfl⟩ := List.mem_iff_getElem.mp hl
  have := h i hi
  rwa [List.getD_eq_getElem?_getD, List.getElem?_eq_getElem hi] at this

/-- Draining a registered queue yields its levels' concatenation, value by
value, in level-then-position order. -/
theorem dequeueAll_drain (fuel : Nat) :
    ∀ (mpq : MultiPriorityQueue) (name : String) (pq : PriorityQueue),
      mpq.lookup name = some pq → pq.size ≤ fuel →
      mpq.dequeueAll name fuel = pq.queues.flatten.map Item.value := by
  induction fuel with
  | zero =>
      intro mpq name pq hl hs
      have hflat : pq.queues.flatten.length = 0 := by
        rw [List.length_flatten]
        simpa [PriorityQueue.size] using hs
      rw [List.length_eq_zero] at hflat
      simp [MultiPriorityQueue.dequeueAll, hflat]
  | succ fuel ih =>
      intro mpq name pq hl hs
      cases hdq : dequeueLevels pq.queues with
      | none =>
          have hflat := (dequeueLevels_eq_none_iff pq.queues).mp hdq
          simp [MultiPriorityQueue.dequeueAll, MultiPriorityQueue.Dequeue,
            hl, hdq, hflat]
      | some pair =>
          obtain ⟨it, ls2⟩ := pair
          obtain ⟨hflat, _⟩ := dequeueLevels_some pq.queues it ls2 hdq
          have hsize : (⟨ls2⟩ : PriorityQueue).size ≤ fuel := by
            have h1 : pq.queues.flatten.length = pq.size := by
              rw [List.length_flatten]; rfl
            have h2 : ls2.flatten.length = (⟨ls2⟩ : PriorityQueue).size := by
              rw [List.length_flatten]; rfl
            rw [hflat] at h1
            simp only [List.length_cons] at h1
            omega
          have hl2 : (mpq.setQueue name ⟨ls2⟩).lookup name = some ⟨ls2⟩ :=
            assocFind_set_self mpq.queues name ⟨ls2⟩
          have := ih (mpq.setQueue name ⟨ls2⟩) name ⟨ls2⟩ hl2 hsize
          simp [MultiPriorityQueue.dequeueAll, MultiPriorityQueue.Dequeue,
            hl, hdq, this, hflat]

/-- The per-priority sequences of `ListContents`, concatenated in ascending
priority order, are the levels' concatenation, value by value. -/
theorem listLevels_flatten (ls : List (List Item)) :
    ∀ p, ((listLevels p ls).map Prod.snd).flatten = ls.flatten.map Item.value := by
  induction ls with
  | nil => intro p; simp [listLevels]
  | cons level rest ih =>
      intro p
      cases level with
      | nil => simpa [listLevels] using ih (p + 1)
      | cons it others => simp [listLevels, ih (p + 1)]

theorem listLevels_key_le (ls : List (List Item)) :
    ∀ p e, e ∈ listLevels p ls → p ≤ e.1 := by
  induction ls with
  | nil => intro p e h; simp [listLevels] at h
  | cons level rest ih =>
      intro p e h
      cases level with
      | nil =>
          have := ih (p + 1) e (by simpa [listLevels] using h)
          omega
      | cons it others =>
          simp [listLevels] at h
          rcases h with rfl | h
          · simp
          · have := ih (p + 1) e h
            omega

/-- `ListContents` entries carry strictly ascending priority keys. -/
theorem listLevels_sorted (ls : List (List Item)) :
    ∀ p, (listLevels p ls).Pairwise (fun a b => a.1 < b.1) := by
  induction ls with
  | nil => intro p; simp [listLevels]
  | cons level rest ih =>
      intro p
      cases level with
      | nil => simpa [listLevels] using ih (p + 1)
      | cons it others =>
          simp only [listLevels, List.isEmpty_cons, Bool.false_eq_true,
            if_false, List.pairwise_cons]
          refine ⟨?_, ih (p + 1)⟩
          intro e he
          have := listLevels_key_le rest (p + 1) e he
          omega

/-- A list of lists flattens level by level, in index order. -/
theorem flatten_eq_range {α : Type} (ls : List (List α)) :
    ls.flatten = ((List.range ls.length).map (fun i => ls.getD i [])).flatten := by
  induction ls with
  | nil => simp
  | cons level rest ih =>
      rw [List.length_cons, List.range_succ_eq_map]
      simp only [List.map_cons, List.getD_cons_zero, List.map_map,
        List.flatten_cons]
      have heq : (List.range rest.length).map
            ((fun i => (level :: rest).getD i []) ∘ Nat.succ)
          = (List.range rest.length).map (fun i => rest.getD i []) :=
        List.map_congr_left (fun i _ => by simp)
      rw [heq, ← ih]

/-- Setting one singleton level in an all-empty list of levels makes that
singleton the whole flattening. -/
theorem flatten_set_singleton {α : Type} (ls : List (List α)) :
    ∀ i (a : α), (∀ l ∈ ls, l = []) → i < ls.length →
      (ls.set i [a]).flatten = [a] := by
  induction ls with
  | nil => intro i a _ h; simp at h
  | cons level rest ih =>
      intro i a hall hi
      cases i with
      | zero =>
          have hrest : rest.flatten = [] := by
            rw [List.flatten_eq_nil_iff]
            exact fun l hl => hall l (by simp [hl])
          simp [hrest]
      | succ i0 =>
          have hlevel : level = [] := hall level (by simp)
          have := ih i0 a (fun l hl => hall l (by simp [hl])) (by simpa using hi)
          simp [hlevel, this]

/-- Two singleton levels set at `i < j` in an all-empty list flatten to the
`i` value then the `j` value. -/
theorem flatten_set_set {α : Type} (ls : List (List α)) :
    ∀ i j (a b : α), (∀ l ∈ ls, l = []) → i < j → j < ls.length →
      ((ls.set i [a]).set j [b]).flatten = [a, b] := by
  induction ls with
  | nil => intro i j a b _ _ h; simp at h
  | cons level rest ih =>
      intro i j a b hall hij hj
      cases i with
      | zero =>
          obtain ⟨j0, rfl⟩ : ∃ j0, j = j0 + 1 := ⟨j - 1, by omega⟩
          have := flatten_set_singleton rest j0 b
            (fun l hl => hall l (by simp [hl])) (by simpa using hj)
          simp [this]
      | succ i0 =>
          obtain ⟨j0, rfl⟩ : ∃ j0, j = j0 + 1 := ⟨j - 1, by omega⟩
          have hlevel : level = [] := hall level (by simp)
          have := ih i0 j0 a b (fun l hl => hall l (by simp [hl]))
            (by omega) (by simpa using hj)
          simp [hlevel, this]

theorem getD_set_self {α : Type} (l : List α) (d : α) (i : Nat) (x : α)
    (h : i < l.length) : (l.set i x).getD i d = x := by
  simp [List.getD_eq_getElem?_getD, List.getElem?_set_self, h]

theorem getD_set_ne {α : Type} (l : List α) (d : α) (i j : Nat) (x : α)
    (h : i ≠ j) : (l.set i x).getD j d = l.getD j d := by
  simp [List.getD_eq_getElem?_getD, List.getElem?_set_ne h]

/-- `Enqueue` on a registered queue with an in-range priority appends to that
priority's level. -/
theorem Enqueue_ok (mpq : MultiPriorityQueue) (name v : String)
    (pq : PriorityQueue) (p : Int) (hl : mpq.lookup name = some pq)
    (h0 : 0 ≤ p) (h9 : p ≤ 9) :
    mpq.Enqueue name v p =
      (.ok (), mpq.setQueue name ⟨levelAppend pq.queues p.toNat ⟨v, p⟩⟩) := by
  have hrange : ¬(p < 0 ∨ p > 9) := by omega
  simp [MultiPriorityQueue.Enqueue, hrange, hl]

/-- `InsertAtTop` on a registered queue with an in-range priority prepends to
that priority's level. -/
theorem InsertAtTop_ok (mpq : MultiPriorityQueue) (name v : String)
    (pq : PriorityQueue) (p : Int) (hl : mpq.lookup name = some pq)
    (h0 : 0 ≤ p) (h9 : p ≤ 9) :
    mpq.InsertAtTop name v p =
      (.ok (), mpq.setQueue name ⟨levelPrepend pq.queues p.toNat ⟨v, p⟩⟩) := by
  have hrange : ¬(p < 0 ∨ p > 9) := by omega
  simp [MultiPriorityQueue.InsertAtTop, hrange, hl]

/-!
## Claim theorems
-/

/-- C1: for the bucket backend, Dequeue on a registered queue scans levels 0
through 9 in ascending order and removes and returns the value at the front
of the first non-empty level; if all ten levels are empty it fails with
EmptyQueue and the queue is unchanged; consequently two items enqueued at
priorities `p1 < p2` into an otherwise-empty queue come back `p1` item first
(whichever order they were enqueued in). -/
theorem c1_bucket_dequeue_scan :
    (∀ (mpq : MultiPriorityQueue) (name : String) (pq : PriorityQueue)
        (i : Nat), mpq.lookup name = some pq → pq.queues.length = 10 →
        firstNonEmpty pq.queues = some i →
        i < 10 ∧ (∀ j, j < i → pq.queues.getD j [] = []) ∧
        ∃ it rest, pq.queues.getD i [] = it :: rest ∧
          mpq.Dequeue name =
            (.ok it.value, mpq.setQueue name ⟨pq.queues.set i rest⟩)) ∧
    (∀ (mpq : MultiPriorityQueue) (name : String) (pq : PriorityQueue),
        mpq.lookup name = some pq → pq.queues.length = 10 →
        (∀ j, j < 10 → pq.queues.getD j [] = []) →
        mpq.Dequeue name = (.error (.emptyQueue name), mpq)) ∧
    (∀ (mpq : MultiPriorityQueue) (name v1 v2 : String) (pq : PriorityQueue)
        (p1 p2 : Int) (fuel : Nat),
        mpq.lookup name = some pq → pq.queues.length = 10 →
        (∀ l ∈ pq.queues, l = []) →
        0 ≤ p1 → p1 < p2 → p2 ≤ 9 → 2 ≤ fuel →
        ((mpq.Enqueue name v1 p1).2.Enqueue name v2 p2).2.dequeueAll name fuel
            = [v1, v2] ∧
        ((mpq.Enqueue name v2 p2).2.Enqueue name v1 p1).2.dequeueAll name fuel
            = [v1, v2]) := by
  refine ⟨?_, ?_, ?_⟩
  · intro mpq name pq i hl hlen hfne
    obtain ⟨hi, hprev, it, rest, hget, hdq⟩ := firstNonEmpty_spec pq.queues i hfne
    refine ⟨by omega, hprev, it, rest, hget, ?_⟩
    simp [MultiPriorityQueue.Dequeue, hl, hdq]
  · intro mpq name pq hl hlen hempty
    have hall : ∀ l ∈ pq.queues, l = [] :=
      all_empty_of_getD pq.queues (fun j hj => hempty j (by omega))
    have hdq : dequeueLevels pq.queues = none :=
      (dequeueLevels_eq_none_iff pq.queues).mpr
        (List.flatten_eq_nil_iff.mpr hall)
    simp [MultiPriorityQueue.Dequeue, hl, hdq]
  · intro mpq name v1 v2 pq p1 p2 fuel hl hlen hall h0 h12 h9 hfuel
    have h10 : 0 ≤ p2 := by omega
    have h19 : p1 ≤ 9 := by omega
    have htn : p1.toNat < p2.toNat := by omega
    have htn2 : p2.toNat < 10 := by omega
    have hset2 : ∀ w1 w2 : String,
        levelAppend (levelAppend pq.queues p1.toNat ⟨w1, p1⟩) p2.toNat ⟨w2, p2⟩
          = (pq.queues.set p1.toNat [⟨w1, p1⟩]).set p2.toNat [⟨w2, p2⟩] := by
      intro w1 w2
      unfold levelAppend
      rw [getD_of_all_empty pq.queues p1.toNat hall,
        getD_set_ne _ _ _ _ _ (by omega), getD_of_all_empty pq.queues p2.toNat hall]
      simp
    have hflat : ∀ w1 w2 : String,
        ((pq.queues.set p1.toNat [⟨w1, p1⟩]).set p2.toNat [⟨w2, p2⟩]).flatten
          = [⟨w1, p1⟩, ⟨w2, p2⟩] := by
      intro w1 w2
      exact flatten_set_set pq.queues p1.toNat p2.toNat _ _ hall htn (by omega)
    have main : ∀ (m2 : MultiPriorityQueue) (qs : List (List Item)),
        m2.lookup name = some ⟨qs⟩ → qs.flatten = [⟨v1, p1⟩, ⟨v2, p2⟩] →
        m2.dequeueAll name fuel = [v1, v2] := by
      intro m2 qs hl2 hq
      have hsize : (⟨qs⟩ : PriorityQueue).size ≤ fuel := by
        have : qs.flatten.length = (⟨qs⟩ : PriorityQueue).size := by
          rw [List.length_flatten]; rfl
        rw [hq] at this
        simp only [List.length_cons, List.length_nil] at this
        omega
      rw [dequeueAll_drain fuel m2 name ⟨qs⟩ hl2 hsize, hq]
      simp
    constructor
    · rw [Enqueue_ok mpq name v1 pq p1 hl h0 h19]
      dsimp only
      rw [Enqueue_ok (mpq.setQueue name ⟨levelAppend pq.queues p1.toNat ⟨v1, p1⟩⟩)
        name v2 ⟨levelAppend pq.queues p1.toNat ⟨v1, p1⟩⟩ p2
        (assocFind_set_self mpq.queues name _) h10 h9]
      dsimp only
      refine main _ _ (assocFind_set_self _ name _) ?_
      rw [hset2 v1 v2, hflat v1 v2]
    · rw [Enqueue_ok mpq name v2 pq p2 hl h10 h9]
      dsimp only
      rw [Enqueue_ok (mpq.setQueue name ⟨levelAppend pq.queues p2.toNat ⟨v2, p2⟩⟩)
        name v1 ⟨levelAppend pq.queues p2.toNat ⟨v2, p2⟩⟩ p1
        (assocFind_set_self mpq.queues name _) h0 h19]
      dsimp only
      refine main _ _ (assocFind_set_self _ name _) ?_
      unfold levelAppend
      rw [getD_of_all_empty pq.queues p2.toNat hall,
        getD_set_ne _ _ _ _ _ (by omega), getD_of_all_empty pq.queues p1.toNat hall]
      simp only [List.nil_append]
      rw [List.set_comm _ _ _ (by omega)]
      exact hflat v1 v2

/-- Concrete single-queue registry used by several witnesses: one queue
named `q` whose level 1 holds the single value `x`. -/
def pqW : PriorityQueue :=
  ⟨[[], [⟨"x", 1⟩], [], [], [], [], [], [], [], []]⟩

def mpqW : MultiPriorityQueue := ⟨[("q", pqW)]⟩

theorem c1_bucket_dequeue_scan_witness :
    (mpqW.lookup "q" = some pqW ∧ pqW.queues.length = 10 ∧
      firstNonEmpty pqW.queues = some 1) ∧
    (1 < 10 ∧ (∀ j, j < 1 → pqW.queues.getD j [] = []) ∧
      ∃ it rest, pqW.queues.getD 1 [] = it :: rest ∧
        mpqW.Dequeue "q" =
          (.ok it.value, mpqW.setQueue "q" ⟨pqW.queues.set 1 rest⟩)) :=
  ⟨⟨by decide, by decide, by decide⟩,
    c1_bucket_dequeue_scan.1 mpqW "q" pqW 1 (by decide) (by decide) (by decide)⟩

/-- C7: for the bucket backend, draining a registered queue by repeated
Dequeue reproduces exactly the values of the immediately preceding
ListContents report, concatenated in ascending priority order, value by
value in the same (priority, index) order. -/
theorem c7_list_then_drain_roundtrip :
    ∀ (mpq : MultiPriorityQueue) (name : String) (pq : PriorityQueue)
      (contents : List (Nat × List String)) (fuel : Nat),
      mpq.lookup name = some pq → pq.size ≤ fuel →
      (mpq.ListContents name).1 = .ok contents →
      contents.Pairwise (fun a b => a.1 < b.1) ∧
      mpq.dequeueAll name fuel = (contents.map Prod.snd).flatten := by
  intro mpq name pq contents fuel hl hs hc
  have hc2 : contents = listLevels 0 pq.queues := by
    simp only [MultiPriorityQueue.ListContents, hl] at hc
    exact (Except.ok.inj hc).symm
  subst hc2
  refine ⟨listLevels_sorted pq.queues 0, ?_⟩
  rw [dequeueAll_drain fuel mpq name pq hl hs, listLevels_flatten pq.queues 0]

theorem c7_list_then_drain_roundtrip_witness :
    (mpqW.lookup "q" = some pqW ∧ pqW.size ≤ 3 ∧
      (mpqW.ListContents "q").1 = .ok [(1, ["x"])]) ∧
    ([(1, ["x"])].Pairwise (fun a b : Nat × List String => a.1 < b.1) ∧
      mpqW.dequeueAll "q" 3 = ([(1, ["x"])].map Prod.snd).flatten) :=
  ⟨⟨by decide, by decide, by decide⟩,
    c7_list_then_drain_roundtrip mpqW "q" pqW [(1, ["x"])] 3
      (by decide) (by decide) (by decide)⟩

/-- C4: on both backends, Enqueue and InsertAtTop with a priority outside
[0, 9] fail with InvalidPriority and leave the state exactly unchanged. -/
theorem c4_invalid_priority_rejected :
    ∀ (p : Int), (p < 0 ∨ p > 9) →
      (∀ (mpq : MultiPriorityQueue) (name v : String),
        mpq.Enqueue name v p = (.error .invalidPriority, mpq) ∧
        mpq.InsertAtTop name v p = (.error .invalidPriority, mpq)) ∧
      (∀ (r : RedisPriorityQueue) (name v : String),
        r.Enqueue name v p = (.error .invalidPriority, r) ∧
        r.InsertAtTop name v p = (.error .invalidPriority, r)) := by
  intro p hp
  refine ⟨fun mpq name v => ⟨?_, ?_⟩, fun r name v => ⟨?_, ?_⟩⟩ <;>
    simp [MultiPriorityQueue.Enqueue, MultiPriorityQueue.InsertAtTop,
      RedisPriorityQueue.Enqueue, RedisPriorityQueue.InsertAtTop, hp]

theorem c4_invalid_priority_rejected_witness :
    ((10 : Int) < 0 ∨ (10 : Int) > 9) ∧
    (mpqW.Enqueue "q" "x" 10 = (.error .invalidPriority, mpqW) ∧
      mpqW.InsertAtTop "q" "x" 10 = (.error .invalidPriority, mpqW)) :=
  ⟨by decide, (c4_invalid_priority_rejected 10 (by decide)).1 mpqW "q" "x"⟩

/-- C10: in both backends, the priority-range check runs before name
resolution, so an out-of-range priority on an unregistered name yields
InvalidPriority (never QueueNotFound) and the registry mapping is
untouched. -/
theorem c10_validation_precedes_lookup :
    ∀ (p : Int) (name v : String), (p < 0 ∨ p > 9) →
      (∀ (mpq : MultiPriorityQueue), mpq.lookup name = none →
        mpq.Enqueue name v p = (.error .invalidPriority, mpq) ∧
        mpq.InsertAtTop name v p = (.error .invalidPriority, mpq)) ∧
      (∀ (r : RedisPriorityQueue),
        r.Enqueue name v p = (.error .invalidPriority, r) ∧
        r.InsertAtTop name v p = (.error .invalidPriority, r)) := by
  intro p name v hp
  refine ⟨fun mpq _ => ⟨?_, ?_⟩, fun r => ⟨?_, ?_⟩⟩ <;>
    simp [MultiPriorityQueue.Enqueue, MultiPriorityQueue.InsertAtTop,
      RedisPriorityQueue.Enqueue, RedisPriorityQueue.InsertAtTop, hp]

theorem c10_validation_precedes_lookup_witness :
    (((-1 : Int) < 0 ∨ (-1 : Int) > 9) ∧
      NewMultiPriorityQueue.lookup "ghost" = none) ∧
    (NewMultiPriorityQueue.Enqueue "ghost" "x" (-1)
        = (.error .invalidPriority, NewMultiPriorityQueue) ∧
      NewMultiPriorityQueue.InsertAtTop "ghost" "x" (-1)
        = (.error .invalidPriority, NewMultiPriorityQueue)) :=
  ⟨⟨by decide, by decide⟩,
    (c10_validation_precedes_lookup (-1) "ghost" "x" (by decide)).1
      NewMultiPriorityQueue (by decide)⟩

/-- C5: existence-error divergence.  Bucket backend: every operation except
AddQueue fails with QueueNotFound on an unregistered name (with an in-range
priority where one is taken) and leaves the registry unchanged.  Store
backend: AddQueue is a no-op success, no operation ever reports
QueueNotFound, and an unbound name behaves as an empty queue. -/
theorem c5_existence_error_divergence :
    (∀ (mpq : MultiPriorityQueue) (name : String), mpq.lookup name = none →
      (∀ (v : String) (p : Int), 0 ≤ p → p ≤ 9 →
        mpq.Enqueue name v p = (.error (.queueNotFound name), mpq) ∧
        mpq.InsertAtTop name v p = (.error (.queueNotFound name), mpq)) ∧
      mpq.Dequeue name = (.error (.queueNotFound name), mpq) ∧
      mpq.IsEmpty name = (.error (.queueNotFound name), mpq) ∧
      mpq.ListContents name = (.error (.queueNotFound name), mpq) ∧
      (∀ v, mpq.GetPosition name v = (.error (.queueNotFound name), mpq))) ∧
    (∀ (r : RedisPriorityQueue) (name : String), r.AddQueue name = (.ok (), r)) ∧
    (∀ (r : RedisPriorityQueue) (name v n2 : String) (p : Int),
      (r.Enqueue name v p).1 ≠ .error (.queueNotFound n2) ∧
      (r.Dequeue name).1 ≠ .error (.queueNotFound n2) ∧
      (r.IsEmpty name).1 ≠ .error (.queueNotFound n2) ∧
      (r.ListContents name).1 ≠ .error (.queueNotFound n2) ∧
      (r.GetPosition name v).1 ≠ .error (.queueNotFound n2) ∧
      (r.InsertAtTop name v p).1 ≠ .error (.queueNotFound n2) ∧
      (r.DeleteItem name v).1 ≠ .error (.queueNotFound n2)) ∧
    (∀ (r : RedisPriorityQueue) (name : String), assocFind r.store name = none →
      (r.Dequeue name).1 = .error (.emptyQueue name) ∧
      (r.IsEmpty name).1 = .ok true ∧
      (r.ListContents name).1 = .ok []) := by
  refine ⟨?_, ?_, ?_, ?_⟩
  · intro mpq name hl
    have hrange : ∀ p : Int, 0 ≤ p → p ≤ 9 → ¬(p < 0 ∨ p > 9) := by omega
    exact ⟨fun v p h0 h9 => by
        simp [MultiPriorityQueue.Enqueue, MultiPriorityQueue.InsertAtTop,
          hrange p h0 h9, hl],
      by simp [MultiPriorityQueue.Dequeue, hl],
      by simp [MultiPriorityQueue.IsEmpty, hl],
      by simp [MultiPriorityQueue.ListContents, hl],
      fun v => by simp [MultiPriorityQueue.GetPosition, hl]⟩
  · intro r name; rfl
  · intro r name v n2 p
    refine ⟨?_, ?_, ?_, ?_, ?_, ?_, ?_⟩
    · simp only [RedisPriorityQueue.Enqueue]; split <;> simp
    · simp only [RedisPriorityQueue.Dequeue]; split <;> simp
    · simp [RedisPriorityQueue.IsEmpty]
    · simp [RedisPriorityQueue.ListContents]
    · simp only [RedisPriorityQueue.GetPosition]; split <;> simp
    · simp only [RedisPriorityQueue.InsertAtTop]; split <;> simp
    · simp only [RedisPriorityQueue.DeleteItem]; split <;> simp
  · intro r name hfind
    have hkey : r.getKey name = [] := by
      simp [RedisPriorityQueue.getKey, hfind]
    exact ⟨by simp [RedisPriorityQueue.Dequeue, hkey],
      by simp [RedisPriorityQueue.IsEmpty, hkey],
      by simp [RedisPriorityQueue.ListContents, hkey, zContentsFold]⟩

theorem c5_existence_error_divergence_witness :
    (NewMultiPriorityQueue.lookup "ghost" = none ∧
      ((0 : Int) ≤ 3 ∧ (3 : Int) ≤ 9)) ∧
    ((NewMultiPriorityQueue.Enqueue "ghost" "x" 3
        = (.error (.queueNotFound "ghost"), NewMultiPriorityQueue) ∧
      NewMultiPriorityQueue.InsertAtTop "ghost" "x" 3
        = (.error (.queueNotFound "ghost"), NewMultiPriorityQueue)) ∧
      NewMultiPriorityQueue.Dequeue "ghost"
        = (.error (.queueNotFound "ghost"), NewMultiPriorityQueue)) :=
  ⟨⟨by decide, by decide, by decide⟩,
    ((c5_existence_error_divergence.1 NewMultiPriorityQueue "ghost"
        (by decide)).1 "x" 3 (by decide) (by decide)),
    ((c5_existence_error_divergence.1 NewMultiPriorityQueue "ghost"
        (by decide)).2.1)⟩

/-- Lookup presence at any name is preserved whenever an operation writes a
queue back under a name it successfully resolved. -/
theorem setQueue_isSome_preserved (mpq : MultiPriorityQueue)
    (name n : String) (pq pq0 : PriorityQueue)
    (hl : mpq.lookup name = some pq0) :
    ((mpq.setQueue name pq).lookup n).isSome = (mpq.lookup n).isSome := by
  by_cases h : name = n
  · subst h
    rw [show (mpq.setQueue name pq).lookup name
        = some pq from assocFind_set_self mpq.queues name pq, hl]
    rfl
  · have h2 : (mpq.setQueue name pq).lookup n = mpq.lookup n :=
      assocFind_set_ne mpq.queues name n pq h
    rw [h2]

/-- C6: for the bucket registry, a duplicate AddQueue fails with
AlreadyExists leaving the whole registry (hence the existing queue and all
its items) unchanged; a successful AddQueue binds the name to a fresh queue
with ten empty levels, leaving every other binding unchanged; and the
mutating queue operations never add or remove a name binding. -/
theorem c6_registry_name_binding :
    (∀ (mpq : MultiPriorityQueue) (name : String) (pq : PriorityQueue),
      mpq.lookup name = some pq →
      mpq.AddQueue name = (.error (.alreadyExists name), mpq)) ∧
    (∀ (mpq : MultiPriorityQueue) (name : String), mpq.lookup name = none →
      mpq.AddQueue name = (.ok (), mpq.setQueue name NewPriorityQueue) ∧
      (mpq.setQueue name NewPriorityQueue).lookup name = some NewPriorityQueue ∧
      NewPriorityQueue.queues = List.replicate 10 [] ∧
      (∀ n, n ≠ name →
        (mpq.setQueue name NewPriorityQueue).lookup n = mpq.lookup n)) ∧
    (∀ (mpq : MultiPriorityQueue) (name v n : String) (p : Int),
      (((mpq.Enqueue name v p).2).lookup n).isSome = (mpq.lookup n).isSome ∧
      (((mpq.InsertAtTop name v p).2).lookup n).isSome = (mpq.lookup n).isSome ∧
      (((mpq.Dequeue name).2).lookup n).isSome = (mpq.lookup n).isSome) := by
  refine ⟨?_, ?_, ?_⟩
  · intro mpq name pq hl
    simp [MultiPriorityQueue.AddQueue, hl]
  · intro mpq name hl
    refine ⟨by simp [MultiPriorityQueue.AddQueue, hl],
      assocFind_set_self mpq.queues name NewPriorityQueue, rfl, ?_⟩
    intro n hn
    show assocFind (assocSet mpq.queues name NewPriorityQueue) n = _
    rw [assocFind_set_ne mpq.queues name n NewPriorityQueue (fun h => hn h.symm)]
    rfl
  · intro mpq name v n p
    refine ⟨?_, ?_, ?_⟩
    · by_cases hp : p < 0 ∨ p > 9
      · simp [MultiPriorityQueue.Enqueue, hp]
      · cases hl : mpq.lookup name with
        | none => simp [MultiPriorityQueue.Enqueue, hp, hl]
        | some pq =>
            simp only [MultiPriorityQueue.Enqueue, hp, if_false, hl]
            exact setQueue_isSome_preserved mpq name n _ pq hl
    · by_cases hp : p < 0 ∨ p > 9
      · simp [MultiPriorityQueue.InsertAtTop, hp]
      · cases hl : mpq.lookup name with
        | none => simp [MultiPriorityQueue.InsertAtTop, hp, hl]
        | some pq =>
            simp only [MultiPriorityQueue.InsertAtTop, hp, if_false, hl]
            exact setQueue_isSome_preserved mpq name n _ pq hl
    · cases hl : mpq.lookup name with
      | none => simp [MultiPriorityQueue.Dequeue, hl]
      | some pq =>
          cases hdq : dequeueLevels pq.queues with
          | none => simp [MultiPriorityQueue.Dequeue, hl, hdq]
          | some pair =>
              obtain ⟨it, ls2⟩ := pair
              simp only [MultiPriorityQueue.Dequeue, hl, hdq]
              exact setQueue_isSome_preserved mpq name n _ pq hl

theorem c6_registry_name_binding_witness :
    (mpqW.lookup "q" = some pqW) ∧
    (mpqW.AddQueue "q" = (.error (.alreadyExists "q"), mpqW)) :=
  ⟨by decide, c6_registry_name_binding.1 mpqW "q" pqW (by decide)⟩

/-!
## Insertion traces

To state intra-level ordering for arbitrary interleavings of `Enqueue` and
`InsertAtTop` calls, a trace of insertion operations is applied to a queue.
-/

/-- One insertion call of a trace. -/
inductive QOp where
  | enq (v : String) (p : Int)
  | top (v : String) (p : Int)
deriving Repr, DecidableEq

def QOp.value : QOp → String
  | .enq v _ => v
  | .top v _ => v

def QOp.prio : QOp → Int
  | .enq _ p => p
  | .top _ p => p

def QOp.isTop : QOp → Bool
  | .enq _ _ => false
  | .top _ _ => true

def MultiPriorityQueue.applyOp (mpq : MultiPriorityQueue) (name : String) :
    QOp → MultiPriorityQueue
  | .enq v p => (mpq.Enqueue name v p).2
  | .top v p => (mpq.InsertAtTop name v p).2

def MultiPriorityQueue.applyOps (mpq : MultiPriorityQueue) (name : String) :
    List QOp → MultiPriorityQueue
  | [] => mpq
  | op :: rest => (mpq.applyOp name op).applyOps name rest

/-- Values of a trace's `InsertAtTop` calls at one priority, in call order. -/
def topsAt (p : Int) (ops : List QOp) : List String :=
  (ops.filter (fun o => o.isTop && o.prio == p)).map QOp.value

/-- Values of a trace's `Enqueue` calls at one priority, in call order. -/
def enqsAt (p : Int) (ops : List QOp) : List String :=
  (ops.filter (fun o => !o.isTop && o.prio == p)).map QOp.value

theorem topsAt_enq (p q : Int) (v : String) (ops : List QOp) :
    topsAt p (QOp.enq v q :: ops) = topsAt p ops := by
  simp [topsAt, QOp.isTop]

theorem topsAt_top (p q : Int) (v : String) (ops : List QOp) :
    topsAt p (QOp.top v q :: ops)
      = if q = p then v :: topsAt p ops else topsAt p ops := by
  by_cases h : q = p <;>
    simp [topsAt, QOp.isTop, QOp.prio, QOp.value, h]

theorem enqsAt_enq (p q : Int) (v : String) (ops : List QOp) :
    enqsAt p (QOp.enq v q :: ops)
      = if q = p then v :: enqsAt p ops else enqsAt p ops := by
  by_cases h : q = p <;>
    simp [enqsAt, QOp.isTop, QOp.prio, QOp.value, h]

theorem enqsAt_top (p q : Int) (v : String) (ops : List QOp) :
    enqsAt p (QOp.top v q :: ops) = enqsAt p ops := by
  simp [enqsAt, QOp.isTop]

/-- Per-level contents after an in-range insertion trace: each level holds
the trace's `InsertAtTop` items in reverse call order, then whatever the
level held before the trace, then the trace's `Enqueue` items in call
order. -/
theorem applyOps_level_char (ops : List QOp) :
    ∀ (mpq : MultiPriorityQueue) (name : String) (pq : PriorityQueue)
      (L : Int → List Item),
      mpq.lookup name = some pq → pq.queues.length = 10 →
      (∀ op ∈ ops, 0 ≤ op.prio ∧ op.prio ≤ 9) →
      (∀ p : Int, 0 ≤ p → p ≤ 9 → pq.queues.getD p.toNat [] = L p) →
      ∃ pq', (mpq.applyOps name ops).lookup name = some pq' ∧
        pq'.queues.length = 10 ∧
        ∀ p : Int, 0 ≤ p → p ≤ 9 →
          pq'.queues.getD p.toNat []
            = (topsAt p ops).reverse.map (fun v => (⟨v, p⟩ : Item)) ++ L p
              ++ (enqsAt p ops).map (fun v => (⟨v, p⟩ : Item)) := by
  induction ops with
  | nil =>
      intro mpq name pq L hl hlen _ hchar
      refine ⟨pq, hl, hlen, ?_⟩
      intro p h0 h9
      simp only [topsAt, enqsAt, List.filter_nil, List.map_nil,
        List.reverse_nil, List.nil_append, List.append_nil]
      exact hchar p h0 h9
  | cons op rest ih =>
      intro mpq name pq L hl hlen hvalid hchar
      have hop := hvalid op (by simp)
      have hrest : ∀ o ∈ rest, 0 ≤ o.prio ∧ o.prio ≤ 9 :=
        fun o ho => hvalid o (by simp [ho])
      cases op with
      | enq v q =>
          have h0q : 0 ≤ q := hop.1
          have h9q : q ≤ 9 := hop.2
          have hlt : q.toNat < pq.queues.length := by omega
          obtain ⟨pq', hl', hlen', hchar'⟩ :=
            ih (mpq.setQueue name ⟨levelAppend pq.queues q.toNat ⟨v, q⟩⟩)
              name ⟨levelAppend pq.queues q.toNat ⟨v, q⟩⟩
              (fun p => if q = p then L p ++ [⟨v, p⟩] else L p)
              (assocFind_set_self mpq.queues name _)
              (by simpa [levelAppend] using hlen)
              hrest
              (by
                intro p h0 h9
                by_cases hpq : q = p
                · subst hpq
                  unfold levelAppend
                  rw [getD_set_self _ _ _ _ hlt, hchar q h0q h9q]
                  simp
                · have hne : q.toNat ≠ p.toNat := by omega
                  unfold levelAppend
                  rw [getD_set_ne _ _ _ _ _ hne, hchar p h0 h9]
                  simp [hpq])
          refine ⟨pq', ?_, hlen', ?_⟩
          · show ((mpq.applyOp name (QOp.enq v q)).applyOps name rest).lookup
                name = some pq'
            show (((mpq.Enqueue name v q).2).applyOps name rest).lookup
                name = some pq'
            rw [Enqueue_ok mpq name v pq q hl h0q h9q]
            exact hl'
          · intro p h0 h9
            have := hchar' p h0 h9
            rw [topsAt_enq, enqsAt_enq]
            by_cases hpq : q = p
            · subst hpq
              rw [this]
              simp
            · simp only [if_neg hpq] at this ⊢
              exact this
      | top v q =>
          have h0q : 0 ≤ q := hop.1
          have h9q : q ≤ 9 := hop.2
          have hlt : q.toNat < pq.queues.length := by omega
          obtain ⟨pq', hl', hlen', hchar'⟩ :=
            ih (mpq.setQueue name ⟨levelPrepend pq.queues q.toNat ⟨v, q⟩⟩)
              name ⟨levelPrepend pq.queues q.toNat ⟨v, q⟩⟩
              (fun p => if q = p then ⟨v, p⟩ :: L p else L p)
              (assocFind_set_self mpq.queues name _)
              (by simpa [levelPrepend] using hlen)
              hrest
              (by
                intro p h0 h9
                by_cases hpq : q = p
                · subst hpq
                  unfold levelPrepend
                  rw [getD_set_self _ _ _ _ hlt, hchar q h0q h9q]
                  simp
                · have hne : q.toNat ≠ p.toNat := by omega
                  unfold levelPrepend
                  rw [getD_set_ne _ _ _ _ _ hne, hchar p h0 h9]
                  simp [hpq])
          refine ⟨pq', ?_, hlen', ?_⟩
          · show ((mpq.applyOp name (QOp.top v q)).applyOps name rest).lookup
                name = some pq'
            show (((mpq.InsertAtTop name v q).2).applyOps name rest).lookup
                name = some pq'
            rw [InsertAtTop_ok mpq name v pq q hl h0q h9q]
            exact hl'
          · intro p h0 h9
            have := hchar' p h0 h9
            rw [topsAt_top, enqsAt_top]
            by_cases hpq : q = p
            · subst hpq
              rw [this]
              simp
            · simp only [if_neg hpq] at this ⊢
              exact this

/-- C2 counterexample: on the store backend, intra-level order is NOT FIFO
and NOT reverse-InsertAtTop order.  Enqueuing `b` then `a` at priority 5
dequeues `a` first (FIFO demands `b`); InsertAtTop of `a` then `b` at
priority 2 dequeues `a` first (reverse call order demands `b`).  Members
with equal scores come back in lexicographic member order. -/
theorem c2_store_not_fifo_counterexample :
    ((((⟨[]⟩ : RedisPriorityQueue).Enqueue "q" "b" 5).2.Enqueue
        "q" "a" 5).2.Dequeue "q").1 = .ok "a" ∧
    ((((⟨[]⟩ : RedisPriorityQueue).InsertAtTop "q" "a" 2).2.InsertAtTop
        "q" "b" 2).2.Dequeue "q").1 = .ok "a" ∧
    "a" ≠ "b" := by decide

theorem map_value_of_mk (p : Int) (l : List String) :
    List.map Item.value (List.map (fun v => (⟨v, p⟩ : Item)) l) = l := by
  induction l with
  | nil => rfl
  | cons a l ih => simp only [List.map_cons, ih]

/-- C2 (amended to the bucket backend): within one priority level, Dequeue
returns items in the order they were Enqueued (FIFO), except that
InsertAtTop items come back first, in reverse order of the InsertAtTop
calls — proved for every interleaved insertion trace on a fresh queue, both
as the per-level contents and as the drained Dequeue order. -/
theorem c2_bucket_intra_level_order :
    ∀ (ops : List QOp) (mpq : MultiPriorityQueue) (name : String)
      (pq : PriorityQueue),
      mpq.lookup name = some pq → pq.queues.length = 10 →
      (∀ l ∈ pq.queues, l = []) →
      (∀ op ∈ ops, 0 ≤ op.prio ∧ op.prio ≤ 9) →
      ∃ pq', (mpq.applyOps name ops).lookup name = some pq' ∧
        (∀ p : Int, 0 ≤ p → p ≤ 9 →
          (pq'.queues.getD p.toNat []).map Item.value
            = (topsAt p ops).reverse ++ enqsAt p ops) ∧
        ∀ fuel, pq'.size ≤ fuel →
          (mpq.applyOps name ops).dequeueAll name fuel
            = ((List.range 10).map
                (fun i : Nat => (topsAt (i : Int) ops).reverse
                  ++ enqsAt (i : Int) ops)).flatten := by
  intro ops mpq name pq hl hlen hall hvalid
  obtain ⟨pq', hl', hlen', hchar⟩ := applyOps_level_char ops mpq name pq
    (fun _ => []) hl hlen hvalid
    (fun p _ _ => getD_of_all_empty pq.queues p.toNat hall)
  have hchar2 : ∀ p : Int, 0 ≤ p → p ≤ 9 →
      (pq'.queues.getD p.toNat []).map Item.value
        = (topsAt p ops).reverse ++ enqsAt p ops := by
    intro p h0 h9
    rw [hchar p h0 h9, List.append_nil, List.map_append,
      map_value_of_mk, map_value_of_mk]
  refine ⟨pq', hl', hchar2, ?_⟩
  intro fuel hfuel
  rw [dequeueAll_drain fuel _ name pq' hl' hfuel,
    flatten_eq_range pq'.queues, hlen', List.map_flatten, List.map_map]
  refine congrArg List.flatten (List.map_congr_left ?_)
  intro i hi
  have hi10 : i < 10 := List.mem_range.mp hi
  have ht : ((i : Int)).toNat = i := by omega
  have hx := hchar2 (i : Int) (by omega) (by omega)
  rw [ht] at hx
  exact hx

def mpqFresh : MultiPriorityQueue := ⟨[("q", NewPriorityQueue)]⟩

def opsW : List QOp :=
  [.enq "b" 5, .enq "a" 5, .top "c" 5, .top "d" 5]

theorem c2_bucket_intra_level_order_witness :
    (mpqFresh.lookup "q" = some NewPriorityQueue ∧
      NewPriorityQueue.queues.length = 10 ∧
      (∀ l ∈ NewPriorityQueue.queues, l = []) ∧
      (∀ op ∈ opsW, 0 ≤ op.prio ∧ op.prio ≤ 9)) ∧
    (∃ pq', (mpqFresh.applyOps "q" opsW).lookup "q" = some pq' ∧
      (∀ p : Int, 0 ≤ p → p ≤ 9 →
        (pq'.queues.getD p.toNat []).map Item.value
          = (topsAt p opsW).reverse ++ enqsAt p opsW) ∧
      ∀ fuel, pq'.size ≤ fuel →
        (mpqFresh.applyOps "q" opsW).dequeueAll "q" fuel
          = ((List.range 10).map
              (fun i : Nat => (topsAt (i : Int) opsW).reverse
                ++ enqsAt (i : Int) opsW)).flatten) :=
  ⟨⟨by decide, by decide, by decide, by decide⟩,
    c2_bucket_intra_level_order opsW mpqFresh "q" NewPriorityQueue
      (by decide) (by decide) (by decide) (by decide)⟩

/-!
## Sorted-set lemmas
-/

/-- The members of a sorted set whose score rounds to `p`, in set order. -/
def zGroup (zs : List ZEntry) (p : Int) : List String :=
  (zs.filter (fun e => roundScore e.2 == p)).map Prod.fst

/-- How one grouping step extends an already-built group, used to
characterize the `ListContents` fold. -/
def combineOpt : Option (List String) → List String → Option (List String)
  | none, [] => none
  | none, h => some h
  | some g, h => some (g ++ h)

theorem combineOpt_nil (o : Option (List String)) : combineOpt o [] = o := by
  cases o <;> simp [combineOpt]

theorem zGroup_cons (m : String) (s : Int) (rest : List ZEntry) (p : Int) :
    zGroup ((m, s) :: rest) p
      = if roundScore s = p then m :: zGroup rest p else zGroup rest p := by
  by_cases h : roundScore s = p <;> simp [zGroup, h]

theorem assocFind_contentsInsert_self (acc : List (Int × List String))
    (p : Int) (m : String) :
    assocFind (contentsInsert p m acc) p
      = some ((assocFind acc p).getD [] ++ [m]) := by
  induction acc with
  | nil => simp [contentsInsert, assocFind]
  | cons e rest ih =>
      obtain ⟨k, vs⟩ := e
      by_cases h : k = p <;> simp [contentsInsert, assocFind, h, ih]

theorem assocFind_contentsInsert_ne (acc : List (Int × List String))
    (p q : Int) (m : String) (h : p ≠ q) :
    assocFind (contentsInsert p m acc) q = assocFind acc q := by
  induction acc with
  | nil => simp [contentsInsert, assocFind, h]
  | cons e rest ih =>
      obtain ⟨k, vs⟩ := e
      by_cases h2 : k = p
      · subst h2
        simp [contentsInsert, assocFind, h]
      · by_cases h3 : k = q
        · subst h3
          simp [contentsInsert, assocFind, h2]
        · simp [contentsInsert, assocFind, h2, h3, ih]

/-- The grouping fold of `ListContents`, relative to an accumulator. -/
theorem zContentsFold_find (zs : List ZEntry) :
    ∀ (acc : List (Int × List String)) (p : Int), 0 ≤ p → p ≤ 9 →
      assocFind (zContentsFold acc zs) p
        = combineOpt (assocFind acc p) (zGroup zs p) := by
  induction zs with
  | nil => intro acc p _ _; rw [zGroup]; simp [zContentsFold, combineOpt_nil]
  | cons e rest ih =>
      intro acc p h0 h9
      obtain ⟨m, s⟩ := e
      rw [zGroup_cons]
      by_cases hq : roundScore s = p
      · have hr : 0 ≤ roundScore s ∧ roundScore s ≤ 9 := by omega
        rw [if_pos hq]
        simp only [zContentsFold, hr, and_self, if_true]
        rw [ih (contentsInsert (roundScore s) m acc) p h0 h9, hq,
          assocFind_contentsInsert_self]
        cases hacc : assocFind acc p <;> simp [combineOpt]
      · rw [if_neg hq]
        by_cases hr : 0 ≤ roundScore s ∧ roundScore s ≤ 9
        · simp only [zContentsFold, hr, and_self, if_true]
          rw [ih (contentsInsert (roundScore s) m acc) p h0 h9,
            assocFind_contentsInsert_ne acc (roundScore s) p m hq]
        · simp only [zContentsFold, hr, if_false]
          exact ih acc p h0 h9

/-- Shared characterization of `RedisPriorityQueue.ListContents`: the entry
of a priority `p` in [0, 9] is exactly the set's members whose score rounds
to `p`, in ascending sorted-set order, and the entry is absent when that
group is empty. -/
theorem listContents_group_char (zs : List ZEntry) (p : Int)
    (h0 : 0 ≤ p) (h9 : p ≤ 9) :
    assocFind (zContentsFold [] zs) p
      = if zGroup zs p = [] then none else some (zGroup zs p) := by
  rw [zContentsFold_find zs [] p h0 h9]
  show combineOpt none (zGroup zs p) = _
  cases hz : zGroup zs p <;> simp [combineOpt]

theorem mem_zGroup_iff (zs : List ZEntry) (p : Int) (v : String) :
    v ∈ zGroup zs p ↔ ∃ s, (v, s) ∈ zs ∧ roundScore s = p := by
  constructor
  · intro h
    obtain ⟨⟨a, b⟩, he, hev⟩ := List.mem_map.mp h
    obtain ⟨hmem, hround⟩ := List.mem_filter.mp he
    subst hev
    exact ⟨b, hmem, by simpa using hround⟩
  · rintro ⟨s, hmem, hround⟩
    exact List.mem_map.mpr ⟨(v, s),
      List.mem_filter.mpr ⟨hmem, by simpa using hround⟩, rfl⟩

theorem zinsert_perm (e : ZEntry) (xs : List ZEntry) :
    List.Perm (zinsert e xs) (e :: xs) := by
  induction xs with
  | nil => exact List.Perm.refl _
  | cons x xs ih =>
      unfold zinsert
      by_cases h : zBefore e x = true
      · simp only [h, if_true]
        exact List.Perm.refl _
      · simp only [h, if_false]
        exact (ih.cons x).trans (List.Perm.swap e x xs)

theorem zAdd_mem_self (zs : List ZEntry) (v : String) (s : Int) :
    (v, s) ∈ zAdd zs v s :=
  (zinsert_perm (v, s) _).mem_iff.mpr (by simp)

theorem zAdd_self_score (zs : List ZEntry) (v : String) (s : Int) :
    ∀ s2, (v, s2) ∈ zAdd zs v s → s2 = s := by
  intro s2 h
  rw [zAdd] at h
  have h2 : (v, s2) ∈ ((v, s) :: zs.filter (fun x => x.1 ≠ v)) :=
    (zinsert_perm (v, s) (zs.filter (fun x => x.1 ≠ v))).mem_iff.mp h
  rcases List.mem_cons.mp h2 with h3 | h3
  · exact congrArg Prod.snd h3
  · exfalso
    have := (List.mem_filter.mp h3).2
    simp at this

theorem map_fst_filter_ne (zs : List ZEntry) (v : String) :
    (zs.filter (fun x => x.1 ≠ v)).map Prod.fst
      = (zs.map Prod.fst).filter (fun m => m != v) := by
  induction zs with
  | nil => rfl
  | cons e rest ih =>
      simp only [ne_eq, decide_not] at ih ⊢
      by_cases h : e.1 = v <;> simp [List.filter_cons, h, ih]

theorem zAdd_nodup (zs : List ZEntry) (v : String) (s : Int)
    (h : (zs.map Prod.fst).Nodup) : ((zAdd zs v s).map Prod.fst).Nodup := by
  have hperm := ((zinsert_perm (v, s)
    (zs.filter (fun x => x.1 ≠ v))).map Prod.fst).nodup_iff
  rw [zAdd, hperm]
  simp only [List.map_cons, List.nodup_cons]
  rw [map_fst_filter_ne]
  refine ⟨?_, h.filter _⟩
  intro hc
  have := (List.mem_filter.mp hc).2
  simp at this

theorem getKey_setKey_self (r : RedisPriorityQueue) (name : String)
    (zs : List ZEntry) : (r.setKey name zs).getKey name = zs := by
  show (assocFind (assocSet r.store name zs) name).getD [] = zs
  rw [assocFind_set_self]
  rfl

theorem getKey_setKey_ne (r : RedisPriorityQueue) (name n : String)
    (zs : List ZEntry) (h : name ≠ n) : (r.setKey name zs).getKey n = r.getKey n := by
  show (assocFind (assocSet r.store name zs) n).getD [] = _
  rw [assocFind_set_ne _ _ _ _ h]
  rfl

theorem roundScore_enqueue (p : Int) (h : 0 ≤ p) :
    roundScore (p * 1000000) = p := by
  obtain ⟨n, rfl⟩ := Int.eq_ofNat_of_zero_le h
  unfold roundScore
  have h1 : ((n : Int) * 1000000 + 500000)
      = ((n * 1000000 + 500000 : Nat) : Int) := by push_cast; ring
  rw [h1,
    show Int.tdiv ((n * 1000000 + 500000 : Nat) : Int) 1000000
      = (((n * 1000000 + 500000) / 1000000 : Nat) : Int) from rfl]
  have h3 : (n * 1000000 + 500000) / 1000000 = n := by
    rw [Nat.add_comm, Nat.add_mul_div_right 500000 n (by norm_num)]
    norm_num
  rw [h3]

theorem roundScore_insertAtTop (p : Int) (h : 0 ≤ p) :
    roundScore (p * 1000000 - 1) = p := by
  obtain ⟨n, rfl⟩ := Int.eq_ofNat_of_zero_le h
  unfold roundScore
  have h1 : ((n : Int) * 1000000 - 1 + 500000)
      = ((n * 1000000 + 499999 : Nat) : Int) := by push_cast; ring
  rw [h1,
    show Int.tdiv ((n * 1000000 + 499999 : Nat) : Int) 1000000
      = (((n * 1000000 + 499999) / 1000000 : Nat) : Int) from rfl]
  have h3 : (n * 1000000 + 499999) / 1000000 = n := by
    rw [Nat.add_comm, Nat.add_mul_div_right 499999 n (by norm_num)]
    norm_num
  rw [h3]

/-- Keys outside [0, 9] are never created by the grouping fold. -/
theorem zContentsFold_find_out_of_range (zs : List ZEntry) :
    ∀ (acc : List (Int × List String)) (q : Int), (q < 0 ∨ q > 9) →
      assocFind acc q = none → assocFind (zContentsFold acc zs) q = none := by
  induction zs with
  | nil => intro acc q _ hacc; simpa [zContentsFold] using hacc
  | cons e rest ih =>
      intro acc q hq hacc
      obtain ⟨m, s⟩ := e
      by_cases hr : 0 ≤ roundScore s ∧ roundScore s ≤ 9
      · simp only [zContentsFold, hr, and_self, if_true]
        refine ih _ q hq ?_
        rw [assocFind_contentsInsert_ne acc (roundScore s) q m (by omega)]
        exact hacc
      · simp only [zContentsFold, hr, if_false]
        exact ih acc q hq hacc

/-- C3: store-backend ListContents groups each member under the
rounded-to-nearest-integer value of its score, keeping sorted-set order
within each group and omitting empty groups; in particular a member
InsertAtTop-ed at priority `p` (score `p - 0.000001`) is listed under `p`,
not under `p - 1`. -/
theorem c3_store_listcontents_rounding :
    (∀ (zs : List ZEntry) (p : Int), 0 ≤ p → p ≤ 9 →
      assocFind (zContentsFold [] zs) p
        = if zGroup zs p = [] then none else some (zGroup zs p)) ∧
    (∀ (r : RedisPriorityQueue) (name v : String) (p : Int), 0 ≤ p → p ≤ 9 →
      (((r.InsertAtTop name v p).2).ListContents name).1
          = .ok (zContentsFold [] (((r.InsertAtTop name v p).2).getKey name)) ∧
      (∃ g, assocFind
          (zContentsFold [] (((r.InsertAtTop name v p).2).getKey name)) p
          = some g ∧ v ∈ g) ∧
      (∀ g, assocFind
          (zContentsFold [] (((r.InsertAtTop name v p).2).getKey name)) (p - 1)
          = some g → v ∉ g)) := by
  refine ⟨listContents_group_char, ?_⟩
  intro r name v p h0 h9
  have hrange : ¬(p < 0 ∨ p > 9) := by omega
  have hstate : ((r.InsertAtTop name v p).2).getKey name
      = zAdd ((zRem (r.getKey name) v).1) v (p * 1000000 - 1) := by
    simp only [RedisPriorityQueue.InsertAtTop, hrange, if_false]
    exact getKey_setKey_self r name _
  have hmem : (v, p * 1000000 - 1) ∈ ((r.InsertAtTop name v p).2).getKey name := by
    rw [hstate]; exact zAdd_mem_self _ v _
  have huniq : ∀ s, (v, s) ∈ ((r.InsertAtTop name v p).2).getKey name →
      s = p * 1000000 - 1 := by
    rw [hstate]; exact zAdd_self_score _ v _
  refine ⟨by simp [RedisPriorityQueue.ListContents], ?_, ?_⟩
  · have hvg : v ∈ zGroup (((r.InsertAtTop name v p).2).getKey name) p :=
      (mem_zGroup_iff _ p v).mpr ⟨p * 1000000 - 1, hmem, roundScore_insertAtTop p h0⟩
    rw [listContents_group_char _ p h0 h9]
    have hne : zGroup (((r.InsertAtTop name v p).2).getKey name) p ≠ [] :=
      fun hc => by rw [hc] at hvg; exact List.not_mem_nil v hvg
    rw [if_neg hne]
    exact ⟨_, rfl, hvg⟩
  · intro g hg hvg
    by_cases hp1 : 1 ≤ p
    · rw [listContents_group_char _ (p - 1) (by omega) (by omega)] at hg
      have hne : zGroup (((r.InsertAtTop name v p).2).getKey name) (p - 1) ≠ [] := by
        intro hc; rw [hc] at hg; simp at hg
      rw [if_neg hne] at hg
      have hgg : zGroup (((r.InsertAtTop name v p).2).getKey name) (p - 1) = g :=
        Option.some.inj hg
      rw [← hgg] at hvg
      obtain ⟨s, hmem2, hround⟩ := (mem_zGroup_iff _ (p - 1) v).mp hvg
      have := huniq s hmem2
      subst this
      rw [roundScore_insertAtTop p h0] at hround
      omega
    · have : assocFind
          (zContentsFold [] (((r.InsertAtTop name v p).2).getKey name)) (p - 1)
          = none :=
        zContentsFold_find_out_of_range _ [] (p - 1) (by omega) rfl
      rw [this] at hg
      exact Option.noConfusion hg

theorem c3_store_listcontents_rounding_witness :
    ((0 : Int) ≤ 2 ∧ (2 : Int) ≤ 9) ∧
    ((((⟨[]⟩ : RedisPriorityQueue).InsertAtTop "q" "v" 2).2.ListContents "q").1
        = .ok (zContentsFold []
            ((((⟨[]⟩ : RedisPriorityQueue).InsertAtTop "q" "v" 2).2).getKey "q")) ∧
      (∃ g, assocFind (zContentsFold []
          ((((⟨[]⟩ : RedisPriorityQueue).InsertAtTop "q" "v" 2).2).getKey "q")) 2
          = some g ∧ "v" ∈ g) ∧
      (∀ g, assocFind (zContentsFold []
          ((((⟨[]⟩ : RedisPriorityQueue).InsertAtTop "q" "v" 2).2).getKey "q"))
          (2 - 1) = some g → "v" ∉ g)) :=
  ⟨⟨by decide, by decide⟩,
    c3_store_listcontents_rounding.2 ⟨[]⟩ "q" "v" 2 (by decide) (by decide)⟩

theorem filter_ne_of_not_mem (zs : List ZEntry) (v : String)
    (hv : v ∉ zs.map Prod.fst) :
    zs.filter (fun x => x.1 ≠ v) = zs := by
  refine List.filter_eq_self.mpr ?_
  intro x hx
  have hmem : x.1 ∈ zs.map Prod.fst := List.mem_map_of_mem Prod.fst hx
  have hne : x.1 ≠ v := fun hc => hv (hc ▸ hmem)
  simpa using hne

theorem filter_ne_length (zs : List ZEntry) (v : String)
    (hnd : (zs.map Prod.fst).Nodup) (hv : v ∈ zs.map Prod.fst) :
    (zs.filter (fun x => x.1 ≠ v)).length + 1 = zs.length := by
  induction zs with
  | nil => simp at hv
  | cons e rest ih =>
      simp only [List.map_cons, List.nodup_cons] at hnd
      obtain ⟨hne, hnd2⟩ := hnd
      simp only [List.map_cons, List.mem_cons] at hv
      by_cases h : e.1 = v
      · have hrest : rest.filter (fun x => x.1 ≠ v) = rest :=
          filter_ne_of_not_mem rest v (by rw [← h]; exact hne)
        have hd : (decide (e.1 ≠ v)) = false := by simp [h]
        rw [List.filter_cons, hd]
        simp only [Bool.false_eq_true, if_false]
        rw [hrest, List.length_cons]
      · have hv2 : v ∈ rest.map Prod.fst := by
          rcases hv with hc | hc
          · exact absurd hc.symm h
          · exact hc
        have hlen := ih hnd2 hv2
        have hd : (decide (e.1 ≠ v)) = true := by simp [h]
        rw [List.filter_cons, hd, if_pos rfl]
        simp only [List.length_cons]
        omega

theorem zGroup_filter_ne (zs : List ZEntry) (v : String) (p : Int) :
    zGroup (zs.filter (fun x => x.1 ≠ v)) p
      = (zGroup zs p).filter (fun m => m != v) := by
  unfold zGroup
  rw [List.filter_comm]
  exact map_fst_filter_ne (zs.filter (fun e => roundScore e.2 == p)) v

theorem zAdd_count_self (zs : List ZEntry) (v : String) (s : Int) :
    (((zAdd zs v s).map Prod.fst).count v) = 1 := by
  rw [zAdd,
    ((zinsert_perm (v, s) (zs.filter (fun x => x.1 ≠ v))).map Prod.fst).count_eq]
  simp only [List.map_cons, List.count_cons_self]
  rw [map_fst_filter_ne]
  have hv : v ∉ (zs.map Prod.fst).filter (fun m => m != v) := fun hc => by
    have := (List.mem_filter.mp hc).2
    simp at this
  rw [List.count_eq_zero.mpr hv]

theorem zAdd_count_other (zs : List ZEntry) (v : String) (s : Int)
    (w : String) (hw : w ≠ v) :
    ((zAdd zs v s).map Prod.fst).count w = (zs.map Prod.fst).count w := by
  rw [zAdd,
    ((zinsert_perm (v, s) (zs.filter (fun x => x.1 ≠ v))).map Prod.fst).count_eq]
  simp only [List.map_cons]
  rw [List.count_cons_of_ne hw, map_fst_filter_ne,
    List.count_filter (by simp [hw])]

theorem setKey_nodup (r : RedisPriorityQueue) (name n : String)
    (zs : List ZEntry) (hnd : ((r.getKey n).map Prod.fst).Nodup)
    (hzs : (zs.map Prod.fst).Nodup) :
    (((r.setKey name zs).getKey n).map Prod.fst).Nodup := by
  by_cases h : name = n
  · subst h; rw [getKey_setKey_self]; exact hzs
  · rw [getKey_setKey_ne _ _ _ _ h]; exact hnd

/-- C8: on the store backend (where reachable queues hold no duplicate
members, see the uniqueness invariant), DeleteItem on a present value
succeeds, removes exactly one entry, and changes ListContents only by
deleting that value from its group (dropping the group if it empties);
every other priority's group is untouched, in its original order.  On an
absent value it fails with NotFound and the store is exactly unchanged. -/
theorem c8_deleteitem_removes_exactly_one :
    ∀ (r : RedisPriorityQueue) (name v : String),
      ((r.getKey name).map Prod.fst).Nodup →
      (v ∈ (r.getKey name).map Prod.fst →
        (r.DeleteItem name v).1 = .ok () ∧
        ((r.DeleteItem name v).2.getKey name).length + 1
          = (r.getKey name).length ∧
        (∀ p : Int, 0 ≤ p → p ≤ 9 →
          assocFind (zContentsFold []
              ((r.DeleteItem name v).2.getKey name)) p
            = if (zGroup (r.getKey name) p).filter (fun m => m != v) = []
              then none
              else some ((zGroup (r.getKey name) p).filter (fun m => m != v))) ∧
        (∀ p : Int, 0 ≤ p → p ≤ 9 → v ∉ zGroup (r.getKey name) p →
          assocFind (zContentsFold []
              ((r.DeleteItem name v).2.getKey name)) p
            = assocFind (zContentsFold [] (r.getKey name)) p)) ∧
      (v ∉ (r.getKey name).map Prod.fst →
        r.DeleteItem name v = (.error (.notFound v name), r)) := by
  intro r name v hnd
  constructor
  · intro hv
    have hflen := filter_ne_length (r.getKey name) v hnd hv
    have hcnt : ¬((r.getKey name).length
        - ((r.getKey name).filter (fun x => x.1 ≠ v)).length = 0) := by
      omega
    have hres : r.DeleteItem name v
        = (.ok (), r.setKey name
            ((r.getKey name).filter (fun x => x.1 ≠ v))) := by
      simp only [RedisPriorityQueue.DeleteItem, zRem]
      rw [if_neg hcnt]
    have hkey : (r.DeleteItem name v).2.getKey name
        = (r.getKey name).filter (fun x => x.1 ≠ v) := by
      rw [hres]
      exact getKey_setKey_self r name _
    refine ⟨by rw [hres], by rw [hkey]; exact hflen, ?_, ?_⟩
    · intro p h0 h9
      rw [hkey, listContents_group_char _ p h0 h9, zGroup_filter_ne]
    · intro p h0 h9 hvp
      rw [hkey, listContents_group_char _ p h0 h9, zGroup_filter_ne,
        listContents_group_char _ p h0 h9]
      have hfix : (zGroup (r.getKey name) p).filter (fun m => m != v)
          = zGroup (r.getKey name) p :=
        List.filter_eq_self.mpr (fun m hm => by
          simpa using fun hc : m = v => hvp (hc ▸ hm))
      rw [hfix]
  · intro hv
    have hfix : (r.getKey name).filter (fun x => x.1 ≠ v) = r.getKey name :=
      filter_ne_of_not_mem (r.getKey name) v hv
    have hcnt : (r.getKey name).length
        - ((r.getKey name).filter (fun x => x.1 ≠ v)).length = 0 := by
      rw [hfix]
      omega
    simp only [RedisPriorityQueue.DeleteItem, zRem]
    rw [if_pos hcnt]

/-- Concrete store used by witnesses: one queue `q` holding members `a`
(priority 1) and `b` (priority 2). -/
def rW : RedisPriorityQueue := ⟨[("q", [("a", 1000000), ("b", 2000000)])]⟩

theorem c8_deleteitem_removes_exactly_one_witness :
    (((rW.getKey "q").map Prod.fst).Nodup ∧
      "a" ∈ (rW.getKey "q").map Prod.fst) ∧
    ((rW.DeleteItem "q" "a").1 = .ok () ∧
      ((rW.DeleteItem "q" "a").2.getKey "q").length + 1
        = (rW.getKey "q").length ∧
      (∀ p : Int, 0 ≤ p → p ≤ 9 →
        assocFind (zContentsFold [] ((rW.DeleteItem "q" "a").2.getKey "q")) p
          = if (zGroup (rW.getKey "q") p).filter (fun m => m != "a") = []
            then none
            else some ((zGroup (rW.getKey "q") p).filter (fun m => m != "a"))) ∧
      (∀ p : Int, 0 ≤ p → p ≤ 9 → "a" ∉ zGroup (rW.getKey "q") p →
        assocFind (zContentsFold [] ((rW.DeleteItem "q" "a").2.getKey "q")) p
          = assocFind (zContentsFold [] (rW.getKey "q")) p)) :=
  ⟨⟨by decide, by decide⟩,
    (c8_deleteitem_removes_exactly_one rW "q" "a" (by decide)).1 (by decide)⟩

/-- C9: the store backend never holds two members with the same string
value.  The empty store satisfies this for every key; every operation
preserves it for every key; Enqueue of an already-present value re-scores
that single member (member multiset unchanged, new score priority) instead
of duplicating it; and InsertAtTop always leaves exactly one copy of its
value (score priority - 1e-6), with every other value's multiplicity
untouched. -/
theorem c9_store_value_uniqueness :
    (∀ n : String, (((⟨[]⟩ : RedisPriorityQueue).getKey n).map Prod.fst).Nodup) ∧
    (∀ (r : RedisPriorityQueue) (name n v : String) (p : Int),
      ((r.getKey n).map Prod.fst).Nodup →
      ((((r.AddQueue name).2).getKey n).map Prod.fst).Nodup ∧
      ((((r.Enqueue name v p).2).getKey n).map Prod.fst).Nodup ∧
      ((((r.InsertAtTop name v p).2).getKey n).map Prod.fst).Nodup ∧
      ((((r.Dequeue name).2).getKey n).map Prod.fst).Nodup ∧
      ((((r.DeleteItem name v).2).getKey n).map Prod.fst).Nodup ∧
      ((((r.IsEmpty name).2).getKey n).map Prod.fst).Nodup ∧
      ((((r.ListContents name).2).getKey n).map Prod.fst).Nodup ∧
      ((((r.GetPosition name v).2).getKey n).map Prod.fst).Nodup) ∧
    (∀ (r : RedisPriorityQueue) (name v : String) (p : Int),
      0 ≤ p → p ≤ 9 →
      ((r.getKey name).map Prod.fst).Nodup →
      v ∈ (r.getKey name).map Prod.fst →
      List.Perm ((((r.Enqueue name v p).2).getKey name).map Prod.fst)
        ((r.getKey name).map Prod.fst) ∧
      (v, p * 1000000) ∈ ((r.Enqueue name v p).2).getKey name ∧
      (∀ s, (v, s) ∈ ((r.Enqueue name v p).2).getKey name →
        s = p * 1000000)) ∧
    (∀ (r : RedisPriorityQueue) (name v : String) (p : Int),
      0 ≤ p → p ≤ 9 →
      ((((r.InsertAtTop name v p).2).getKey name).map Prod.fst).count v = 1 ∧
      (∀ w, w ≠ v →
        ((((r.InsertAtTop name v p).2).getKey name).map Prod.fst).count w
          = ((r.getKey name).map Prod.fst).count w) ∧
      (v, p * 1000000 - 1) ∈ ((r.InsertAtTop name v p).2).getKey name ∧
      (∀ s, (v, s) ∈ ((r.InsertAtTop name v p).2).getKey name →
        s = p * 1000000 - 1)) := by
  refine ⟨?_, ?_, ?_, ?_⟩
  · intro n
    show ((assocFind ([] : List (String × List ZEntry)) n).getD []).map
        Prod.fst |>.Nodup
    simp [assocFind]
  · intro r name n v p hnd
    refine ⟨hnd, ?_, ?_, ?_, ?_, hnd, hnd, ?_⟩
    · by_cases hp : p < 0 ∨ p > 9
      · simpa [RedisPriorityQueue.Enqueue, hp] using hnd
      · simp only [RedisPriorityQueue.Enqueue, hp, if_false]
        by_cases hn : name = n
        · subst hn
          rw [getKey_setKey_self]
          exact zAdd_nodup _ _ _ hnd
        · rw [getKey_setKey_ne _ _ _ _ hn]
          exact hnd
    · by_cases hp : p < 0 ∨ p > 9
      · simpa [RedisPriorityQueue.InsertAtTop, hp] using hnd
      · simp only [RedisPriorityQueue.InsertAtTop, hp, if_false]
        by_cases hn : name = n
        · subst hn
          rw [getKey_setKey_self]
          refine zAdd_nodup _ _ _ ?_
          rw [show (zRem (r.getKey name) v).1
              = (r.getKey name).filter (fun x => x.1 ≠ v) from rfl,
            map_fst_filter_ne]
          exact hnd.filter _
        · rw [getKey_setKey_ne _ _ _ _ hn]
          exact hnd
    · cases hk : r.getKey name with
      | nil => simpa [RedisPriorityQueue.Dequeue, hk] using hnd
      | cons e rest =>
          simp only [RedisPriorityQueue.Dequeue, hk]
          by_cases hn : name = n
          · subst hn
            rw [getKey_setKey_self]
            rw [hk] at hnd
            simp only [List.map_cons, List.nodup_cons] at hnd
            exact hnd.2
          · rw [getKey_setKey_ne _ _ _ _ hn]
            exact hnd
    · by_cases hc : (zRem (r.getKey name) v).2 = 0
      · simpa [RedisPriorityQueue.DeleteItem, hc] using hnd
      · simp only [RedisPriorityQueue.DeleteItem, hc, if_false]
        by_cases hn : name = n
        · subst hn
          rw [getKey_setKey_self]
          rw [show (zRem (r.getKey name) v).1
              = (r.getKey name).filter (fun x => x.1 ≠ v) from rfl,
            map_fst_filter_ne]
          exact hnd.filter _
        · rw [getKey_setKey_ne _ _ _ _ hn]
          exact hnd
    · simp only [RedisPriorityQueue.GetPosition]
      split <;> exact hnd
  · intro r name v p h0 h9 hnd hv
    have hrange : ¬(p < 0 ∨ p > 9) := by omega
    have hstate : ((r.Enqueue name v p).2).getKey name
        = zAdd (r.getKey name) v (p * 1000000) := by
      simp only [RedisPriorityQueue.Enqueue, hrange, if_false]
      exact getKey_setKey_self r name _
    have h1 : ((zAdd (r.getKey name) v (p * 1000000)).map Prod.fst).Perm
        (v :: ((r.getKey name).map Prod.fst).filter (fun m => m != v)) := by
      rw [zAdd]
      have h4 := (zinsert_perm (v, p * 1000000)
        ((r.getKey name).filter (fun x => x.1 ≠ v))).map Prod.fst
      rw [List.map_cons, map_fst_filter_ne] at h4
      exact h4
    have h2 : (((r).getKey name).map Prod.fst).Perm
        (v :: ((r.getKey name).map Prod.fst).filter (fun m => m != v)) := by
      have h3 := List.perm_cons_erase hv
      rwa [hnd.erase_eq_filter v] at h3
    refine ⟨?_, ?_, ?_⟩
    · rw [hstate]
      exact h1.trans h2.symm
    · rw [hstate]
      exact zAdd_mem_self _ v _
    · rw [hstate]
      exact zAdd_self_score _ v _
  · intro r name v p h0 h9
    have hrange : ¬(p < 0 ∨ p > 9) := by omega
    have hstate : ((r.InsertAtTop name v p).2).getKey name
        = zAdd ((zRem (r.getKey name) v).1) v (p * 1000000 - 1) := by
      simp only [RedisPriorityQueue.InsertAtTop, hrange, if_false]
      exact getKey_setKey_self r name _
    refine ⟨?_, ?_, ?_, ?_⟩
    · rw [hstate]
      exact zAdd_count_self _ v _
    · intro w hw
      rw [hstate, zAdd_count_other _ _ _ _ hw,
        show (zRem (r.getKey name) v).1
          = (r.getKey name).filter (fun x => x.1 ≠ v) from rfl,
        map_fst_filter_ne, List.count_filter (by simp [hw])]
    · rw [hstate]
      exact zAdd_mem_self _ v _
    · rw [hstate]
      exact zAdd_self_score _ v _

theorem c9_store_value_uniqueness_witness :
    (((0 : Int) ≤ 1 ∧ (1 : Int) ≤ 9) ∧
      ((rW.getKey "q").map Prod.fst).Nodup ∧
      "b" ∈ (rW.getKey "q").map Prod.fst) ∧
    (List.Perm ((((rW.Enqueue "q" "b" 1).2).getKey "q").map Prod.fst)
        ((rW.getKey "q").map Prod.fst) ∧
      ("b", 1 * 1000000) ∈ ((rW.Enqueue "q" "b" 1).2).getKey "q" ∧
      (∀ s, ("b", s) ∈ ((rW.Enqueue "q" "b" 1).2).getKey "q" →
        s = 1 * 1000000)) :=
  ⟨⟨⟨by decide, by decide⟩, by decide, by decide⟩,
    c9_store_value_uniqueness.2.2.1 rW "q" "b" 1
      (by decide) (by decide) (by decide) (by decide)⟩

example : ((NewMultiPriorityQueue.AddQueue "tasks").2.Enqueue "tasks" "A" 2).1
    = .ok () := by decide

example :
    let m1 := (NewMultiPriorityQueue.AddQueue "tasks").2
    let m2 := (m1.Enqueue "tasks" "A" 2).2
    let m3 := (m2.Enqueue "tasks" "B" 0).2
    let m4 := (m3.InsertAtTop "tasks" "C" 0).2
    (m4.Dequeue "tasks").1 = .ok "C" ∧
      ((m4.Dequeue "tasks").2.Dequeue "tasks").1 = .ok "B" := by decide

example :
    let r0 : RedisPriorityQueue := ⟨[]⟩
    let r1 := (r0.Enqueue "q" "b" 5).2
    let r2 := (r1.Enqueue "q" "a" 5).2
    (r2.Dequeue "q").1 = .ok "a" := by decide

example :
    let r0 : RedisPriorityQueue := ⟨[]⟩
    let r1 := (r0.InsertAtTop "q" "v" 2).2
    (r1.ListContents "q").1 = .ok [(2, ["v"])] := by decide
